import Mathlib

/-!
# Verification of `primeutil` (src/index.js)

A shallow embedding of the module's code into Lean 4, together with theorems
settling the specification's claims against it.

Embedding conventions:

* The process-wide mutable array `const sieve = []` is modelled as a value of
  type `List Bool` threaded explicitly through every operation: each operation
  takes the current table and returns `(result, new table)`.
* A JavaScript array read `a[i]` yields `undefined` when `i` is out of range;
  we model element reads as `Option Bool`, with `none` standing for
  `undefined`.  Reads with an `Int` index model the possibility of negative
  indices (which also yield `undefined`).
* JavaScript numbers appearing in `nearestPrime` are modelled by `JsNum`
  (integers, the two infinities used as default bounds, and `NaN`), with the
  IEEE comparison/subtraction behaviour on those values.  The loose equality
  test `x == false` of line 130/131 is modelled by `looseEqFalse`: note that
  in JavaScript `undefined == false` is *false*.
* Line 62 of the source,
  `for ( var prime = 0, prime <= length, i++) {`,
  is not syntactically valid JavaScript, and both loop bounds are written
  `length`, an unbound name.  We model the loop the file's own commentary
  determines: the surrounding comments state that the loop bound is the
  requested `max` (line 70: "which no longer satisfies the condition
  `multiple < max`") and the worked example of `getLabeledSieve` (lines
  90-95) shows indices 0 and 1 left `true`, which forces the outer scan to
  range over `prime = 2, …` (starting it at 0 or 1 would respectively
  diverge on a zero step or mark every index ≥ 1 false, contradicting the
  documented output).  The fuel arguments below are exact iteration counts
  for these `for` loops; they make the recursion structural.
* `fuction isPrime(num)` (line 111) has a misspelled keyword and
  `function listprimes(max)` (line 100) reads the unbound name `num` and is
  exported under the different capitalisation `listPrimes` (line 20); we
  model the bodies these declarations carry (with `num := max` in
  `listprimes`), and record the name/keyword slips alongside the claims they
  affect.
* `while` loops in `nearestPrime` are modelled with an explicit fuel;
  exhausting the fuel yields `none`, so termination of the real loop at a
  given input is exactly the statement that some finite fuel returns `some`.
-/

namespace Primeutil

/-- JavaScript numbers as they occur in this module: integers, the two
infinities (default `min`/`max` bounds of `nearestPrime`), and `NaN`
(the "no prime found" sentinel assigned on lines 135-136). -/
inductive JsNum : Type
  | int : Int → JsNum
  | posInf : JsNum
  | negInf : JsNum
  | nan : JsNum
deriving DecidableEq

/-- JavaScript `<` on `JsNum` (any comparison involving `NaN` is false). -/
def jsLt : JsNum → JsNum → Bool
  | JsNum.nan, _ => false
  | _, JsNum.nan => false
  | JsNum.int a, JsNum.int b => a < b
  | JsNum.int _, JsNum.posInf => true
  | JsNum.int _, JsNum.negInf => false
  | JsNum.posInf, JsNum.posInf => false
  | JsNum.posInf, JsNum.negInf => false
  | JsNum.posInf, JsNum.int _ => false
  | JsNum.negInf, JsNum.posInf => true
  | JsNum.negInf, JsNum.negInf => false
  | JsNum.negInf, JsNum.int _ => true

/-- JavaScript `>` on `JsNum`. -/
def jsGt (a b : JsNum) : Bool := jsLt b a

/-- JavaScript subtraction on `JsNum` (`NaN` propagates; `∞ - ∞ = NaN`). -/
def jsSub : JsNum → JsNum → JsNum
  | JsNum.nan, _ => JsNum.nan
  | _, JsNum.nan => JsNum.nan
  | JsNum.int a, JsNum.int b => JsNum.int (a - b)
  | JsNum.int _, JsNum.posInf => JsNum.negInf
  | JsNum.int _, JsNum.negInf => JsNum.posInf
  | JsNum.posInf, JsNum.posInf => JsNum.nan
  | JsNum.posInf, _ => JsNum.posInf
  | JsNum.negInf, JsNum.negInf => JsNum.nan
  | JsNum.negInf, _ => JsNum.negInf

/-- JavaScript truthiness of a `JsNum` (`0` and `NaN` are falsy). -/
def truthy : JsNum → Bool
  | JsNum.int z => z ≠ 0
  | JsNum.posInf => true
  | JsNum.negInf => true
  | JsNum.nan => false

/-- Truthiness of an element read (`undefined` is falsy). -/
def truthyRead : Option Bool → Bool
  | some b => b
  | none => false

/-- The loose equality test `x == false` applied to an element read:
`false == false` is true, `true == false` is false, and — crucially —
`undefined == false` is *false* in JavaScript. -/
def looseEqFalse : Option Bool → Bool
  | some b => !b
  | none => false

/-- A JavaScript array read `a[i]` with a (possibly negative) integer index:
`some` of the element when `0 ≤ i < a.length`, otherwise `none`
(standing for `undefined`). -/
def jsIndex (l : List Bool) (i : Int) : Option Bool :=
  if 0 ≤ i ∧ i < (l.length : Int) then some (l.getD i.toNat false) else none

/-- The inner `for` loop of the sieve (lines 73-79): starting from index
`mult`, mark every `p`-th index `false` while the index is `< m`.  The
fuel is an upper bound on the iteration count (`m - mult` suffices for
`0 < p`, see `markFromAux_getD`). -/
def markFromAux (p m : Nat) : Nat → List Bool → Nat → List Bool
  | 0, s, _ => s
  | fuel + 1, s, mult =>
      if mult < m then markFromAux p m fuel (s.set mult false) (mult + p) else s

/-- The inner marking loop with its exact fuel. -/
def markFrom (s : List Bool) (p mult m : Nat) : List Bool :=
  markFromAux p m (m - mult) s mult

/-- One iteration of the outer sieve loop (lines 62-81): if the entry at
`p` is truthy, mark every multiple of `p` from `p * p` up to (excluding)
`m` as `false`. -/
def sieveStep (m : Nat) (s : List Bool) (p : Nat) : List Bool :=
  if s.getD p false then markFrom s p (p * p) m else s

/-- The outer sieve loop, running `sieveStep` at `p, p+1, …` for `fuel`
iterations. -/
def sieveOuterAux (m : Nat) : Nat → List Bool → Nat → List Bool
  | 0, s, _ => s
  | fuel + 1, s, p => sieveOuterAux m fuel (sieveStep m s p) (p + 1)

/-- The sieve-of-Eratosthenes pass of `getSieve`, scanning
`prime = 2, …, m - 1` (see the embedding conventions above for how the
broken loop header on line 62 is read). -/
def sieveLoop (s : List Bool) (m : Nat) : List Bool :=
  sieveOuterAux m (m - 2) s 2

/-- `getSieve(max)` (lines 22-84): if the memoized sieve is already long
enough, return a copy of its first `max` entries; otherwise append
`max - sieve.length` fresh `true` entries (the `join/split/map` bulk fill
of line 42), run the sieve loop, and return a copy of the first `max`
entries.  Result: `(returned array, new memoized sieve)`. -/
def getSieve (sieve : List Bool) (max : Nat) : List Bool × List Bool :=
  if max ≤ sieve.length then (sieve.take max, sieve)
  else
    let grown := sieve ++ List.replicate (max - sieve.length) true
    let sieved := sieveLoop grown max
    (sieved.take max, sieved)

/-- `isPrime(num)` (lines 111-122, keyword misspelled `fuction` in the
source): if `sieve.length >= num`, return `sieve[num]` (note: when
`sieve.length == num` this reads one past the end, yielding `undefined`);
otherwise grow via `getSieve(num)` and return the returned array's entry
`[num]` (again one past the end of a length-`num` array). -/
def isPrime (sieve : List Bool) (num : Int) : Option Bool × List Bool :=
  if num ≤ (sieve.length : Int) then (jsIndex sieve num, sieve)
  else ((jsIndex (getSieve sieve num.toNat).1 num), (getSieve sieve num.toNat).2)

/-- `getLabeledSieve(num)` (lines 87-98): the requested sieve with each
element rendered as the singleton `{index: isPrime}` object, modelled as
the pair `(index, entry)`. -/
def getLabeledSieve (s : List Bool) (num : Nat) : List (Nat × Bool) × List Bool :=
  let res := getSieve s num
  (res.1.enum, res.2)

/-- The value of one element of `listprimes`'s intermediate array: the
JavaScript expression `each && index` is `false` when the entry is falsy
and the index (a number) otherwise. -/
inductive MapVal : Type
  | num : Nat → MapVal
  | fls : MapVal
deriving DecidableEq

/-- Truthiness of a `MapVal` (the `filter(Boolean)` of line 108 keeps the
truthy elements: numbers other than `0`). -/
def mapValTruthy : MapVal → Bool
  | MapVal.num n => n ≠ 0
  | MapVal.fls => false

/-- `listprimes(max)` (lines 100-109; exported as `listPrimes` on line 20
and reading the unbound name `num`, here taken to be its parameter `max`):
map each entry to `each && index`, then `filter(Boolean)`. -/
def listprimes (s : List Bool) (max : Nat) : List MapVal × List Bool :=
  let res := getSieve s max
  (((res.1.enum.map fun e => if e.2 then MapVal.num e.1 else MapVal.fls).filter
      mapValTruthy), res.2)

/-- The upward scan of `nearestPrime` (line 130):
`while(nextPrime < max && isPrime(nextPrime) == false){ nextPrime++ }`.
The `&&` short-circuits: `isPrime` (and hence any table growth) only runs
when the bound check passes.  `none` means the fuel ran out before the
loop exited. -/
def scanUp (mx : JsNum) : Nat → List Bool → Int → Option (Int × List Bool)
  | 0, _, _ => none
  | fuel + 1, s, v =>
      if jsLt (JsNum.int v) mx then
        if looseEqFalse (isPrime s v).1 then scanUp mx fuel (isPrime s v).2 (v + 1)
        else some (v, (isPrime s v).2)
      else some (v, s)

/-- The downward scan of `nearestPrime` (line 131):
`while(prevPrime > min && isPrime(prevPrime) == false){ prevPrime-- }`. -/
def scanDown (mn : JsNum) : Nat → List Bool → Int → Option (Int × List Bool)
  | 0, _, _ => none
  | fuel + 1, s, v =>
      if jsGt (JsNum.int v) mn then
        if looseEqFalse (isPrime s v).1 then scanDown mn fuel (isPrime s v).2 (v - 1)
        else some (v, (isPrime s v).2)
      else some (v, s)

/-- Lines 133-142 of `nearestPrime`: the out-of-bounds checks (note line
135 assigns `NaN` to `prevPrime`, not `nextPrime`, exactly as the source
does) followed by the chained conditional of the `return` statement. -/
def nearestPrimeReturn (num : Int) (mn mx : JsNum) (nextP prevP : Int) : JsNum :=
  let prev1 : JsNum := if jsGt (JsNum.int nextP) mx then JsNum.nan else JsNum.int prevP
  let prev2 : JsNum := if jsLt prev1 mn then JsNum.nan else prev1
  if truthy prev2 && !truthy (JsNum.int nextP) then prev2
  else if truthy (JsNum.int nextP) && !truthy prev2 then JsNum.int nextP
  else if !truthy (JsNum.int nextP) && !truthy prev2 then JsNum.nan
  else if jsGt (JsNum.int (nextP - num)) (jsSub (JsNum.int num) prev2) then JsNum.int nextP
  else prev2

/-- `nearestPrime(num, min = -Infinity, max = Infinity)` (lines 124-143):
return `num` itself when `isPrime(num)` is truthy, otherwise run the two
scans and the return chain.  `fuel` bounds the iterations of each `while`
loop; `none` means a loop did not exit within `fuel` iterations. -/
def nearestPrime (fuel : Nat) (s : List Bool) (num : Int) (mn mx : JsNum) :
    Option (JsNum × List Bool) :=
  if truthyRead (isPrime s num).1 then some (JsNum.int num, (isPrime s num).2)
  else
    match scanUp mx fuel (isPrime s num).2 num with
    | none => none
    | some (nextP, s1) =>
      match scanDown mn fuel s1 num with
      | none => none
      | some (prevP, s2) => some (nearestPrimeReturn num mn mx nextP prevP, s2)

/-- The export object of line 20:
`module.exports = {getSieve, getLabeledSieve, listPrimes, nearestPrime}`.
(`isPrime` is absent; note also that no declaration named `listPrimes`
exists in the file — the function is declared `listprimes`.) -/
def moduleExports : List String :=
  ["getSieve", "getLabeledSieve", "listPrimes", "nearestPrime"]

/-! ## Analysis

`codeEntry i` is the steady-state content of the table at index `i`: the
code leaves `0` and `1` `true` (nothing in the sieve loop ever touches
them) and otherwise stores genuine primality. -/

/-- `i` has a divisor `q ≥ 2` with `q * q ≤ i` — equivalently, `i ≥ 2`
and `i` is composite (see `codeEntry_false_iff`).  This is exactly the
set of indices the sieve loop marks `false`. -/
def hasFac (i : Nat) : Prop := ∃ q, 2 ≤ q ∧ q ∣ i ∧ q * q ≤ i

/-- The value the code's table holds at index `i` once the sieve loop has
covered `i`: `true` for `0`, `1` and the primes, `false` otherwise. -/
def codeEntry (i : Nat) : Bool := decide (i < 2 ∨ Nat.Prime i)

/-- A table state is `good` when it is exactly the first `length` values
of `codeEntry` — the shape of every state reachable through the module's
operations. -/
def goodState (s : List Bool) : Prop := s = (List.range s.length).map codeEntry

theorem codeEntry_false_iff (i : Nat) : codeEntry i = false ↔ hasFac i := by
  unfold codeEntry
  rw [decide_eq_false_iff_not]
  constructor
  · intro h
    push_neg at h
    obtain ⟨h2, hnp⟩ := h
    refine ⟨i.minFac, (Nat.minFac_prime ?_).two_le, Nat.minFac_dvd i, ?_⟩
    · omega
    · have := Nat.minFac_sq_le_self (by omega) hnp
      calc i.minFac * i.minFac = i.minFac ^ 2 := (sq i.minFac).symm
        _ ≤ i := this
  · rintro ⟨q, h2, hdvd, hsq⟩
    have hi2 : 2 ≤ i := by nlinarith
    push_neg
    refine ⟨by omega, fun hp => ?_⟩
    rcases (Nat.Prime.eq_one_or_self_of_dvd hp q hdvd) with h1 | hqi
    · omega
    · subst hqi
      nlinarith

theorem markFromAux_length (p m : Nat) :
    ∀ fuel s mult, (markFromAux p m fuel s mult).length = s.length := by
  intro fuel
  induction fuel with
  | zero => intro s mult; rfl
  | succ f ih =>
    intro s mult
    unfold markFromAux
    split
    · rw [ih]; exact List.length_set s mult false
    · rfl

theorem markFromAux_getD (p m : Nat) (hp : 0 < p) :
    ∀ fuel s mult, m ≤ mult + fuel → m ≤ s.length → ∀ i,
      (markFromAux p m fuel s mult).getD i false
        = if mult ≤ i ∧ i < m ∧ p ∣ (i - mult) then false else s.getD i false := by
  intro fuel
  induction fuel with
  | zero =>
    intro s mult hfuel _ i
    have : ¬(mult ≤ i ∧ i < m ∧ p ∣ (i - mult)) := by omega
    simp only [markFromAux, this, if_false]
  | succ f ih =>
    intro s mult hfuel hs i
    unfold markFromAux
    split
    case isTrue hlt =>
      rw [ih (s.set mult false) (mult + p) (by omega)
        (by rw [List.length_set]; exact hs)]
      by_cases hi : i = mult
      · subst hi
        have hc1 : ¬(i + p ≤ i ∧ i < m ∧ p ∣ (i - (i + p))) := by omega
        have hc2 : i ≤ i ∧ i < m ∧ p ∣ (i - i) := ⟨le_refl i, hlt, by simp⟩
        rw [if_neg hc1, if_pos hc2, List.getD_eq_getElem?_getD,
          List.getElem?_set_self (by omega)]
        rfl
      · have hset : (s.set mult false).getD i false = s.getD i false := by
          rw [List.getD_eq_getElem?_getD, List.getD_eq_getElem?_getD,
            List.getElem?_set_ne (fun h => hi h.symm)]
        rw [hset]
        refine if_congr ⟨fun ⟨ha, hb, hc⟩ => ⟨by omega, hb, ?_⟩,
          fun ⟨ha, hb, hc⟩ => ⟨?_, hb, ?_⟩⟩ rfl rfl
        · have : i - mult = (i - (mult + p)) + p := by omega
          rw [this]; exact Nat.dvd_add hc (dvd_refl p)
        · have hlt' : mult < i := by omega
          have hge : p ≤ i - mult := Nat.le_of_dvd (by omega) hc
          omega
        · have : i - (mult + p) = (i - mult) - p := by omega
          rw [this]; exact Nat.dvd_sub' hc (dvd_refl p)
    case isFalse hge =>
      have : ¬(mult ≤ i ∧ i < m ∧ p ∣ (i - mult)) := by omega
      simp only [this, if_false]

theorem markFrom_length (s : List Bool) (p mult m : Nat) :
    (markFrom s p mult m).length = s.length :=
  markFromAux_length p m (m - mult) s mult

theorem markFrom_getD (s : List Bool) (p mult m : Nat) (hp : 0 < p)
    (hs : m ≤ s.length) (i : Nat) :
    (markFrom s p mult m).getD i false
      = if mult ≤ i ∧ i < m ∧ p ∣ (i - mult) then false else s.getD i false :=
  markFromAux_getD p m hp (m - mult) s mult (by omega) hs i

/-- Invariant of the outer sieve scan on a table of length `m` whose
first `old` entries were already settled: after the passes for
`2, …, p - 1`, an entry below `m` is `false` exactly when one of those
passes marked it (a divisor `q < p` with `q * q ≤ i`) or it was already
`false` among the settled entries. -/
def SieveInv (m old p : Nat) (s : List Bool) : Prop :=
  s.length = m ∧ ∀ i, i < m →
    (s.getD i false = false ↔
      (∃ q, 2 ≤ q ∧ q < p ∧ q ∣ i ∧ q * q ≤ i) ∨ (i < old ∧ hasFac i))

theorem sieveStep_inv {m old p : Nat} {s : List Bool} (hp : 2 ≤ p)
    (h : SieveInv m old p s) : SieveInv m old (p + 1) (sieveStep m s p) := by
  obtain ⟨hlen, hiff⟩ := h
  unfold sieveStep
  by_cases hc : s.getD p false = true
  · rw [if_pos hc]
    refine ⟨by rw [markFrom_length]; exact hlen, fun i hi => ?_⟩
    rw [markFrom_getD s p (p * p) m (by omega) (le_of_eq hlen.symm) i]
    by_cases hmark : p * p ≤ i ∧ i < m ∧ p ∣ (i - p * p)
    · rw [if_pos hmark]
      have hpi : p ∣ i := by
        have hrec : i = (i - p * p) + p * p := by omega
        rw [hrec]
        exact Nat.dvd_add hmark.2.2 (dvd_mul_left p p)
      exact iff_of_true rfl (Or.inl ⟨p, hp, by omega, hpi, hmark.1⟩)
    · rw [if_neg hmark, hiff i hi]
      constructor
      · rintro (⟨q, h2, hlt, hdvd, hsq⟩ | hold)
        · exact Or.inl ⟨q, h2, by omega, hdvd, hsq⟩
        · exact Or.inr hold
      · rintro (⟨q, h2, hlt, hdvd, hsq⟩ | hold)
        · rcases Nat.lt_or_ge q p with hqp | hqp
          · exact Or.inl ⟨q, h2, hqp, hdvd, hsq⟩
          · have hq : q = p := by omega
            subst hq
            exact absurd ⟨hsq, hi, Nat.dvd_sub' hdvd (dvd_mul_left q q)⟩ hmark
        · exact Or.inr hold
  · rw [if_neg hc]
    refine ⟨hlen, fun i hi => ?_⟩
    rw [hiff i hi]
    have hfp : s.getD p false = false := by
      cases hb : s.getD p false
      · rfl
      · exact absurd hb hc
    constructor
    · rintro (⟨q, h2, hlt, hdvd, hsq⟩ | hold)
      · exact Or.inl ⟨q, h2, by omega, hdvd, hsq⟩
      · exact Or.inr hold
    · rintro (⟨q, h2, hlt, hdvd, hsq⟩ | hold)
      · rcases Nat.lt_or_ge q p with hqp | hqp
        · exact Or.inl ⟨q, h2, hqp, hdvd, hsq⟩
        · have hq : q = p := by omega
          subst hq
          have hqq : q ≤ q * q := Nat.le_mul_of_pos_left q (by omega)
          have hqm : q < m := by omega
          have hDq := (hiff q hqm).mp hfp
          have hsf : ∃ r, 2 ≤ r ∧ r < q ∧ r ∣ q ∧ r * r ≤ q := by
            rcases hDq with ⟨r, hr2, hrlt, hrdvd, hrsq⟩ | ⟨_, r, hr2, hrdvd, hrsq⟩
            · exact ⟨r, hr2, hrlt, hrdvd, hrsq⟩
            · refine ⟨r, hr2, ?_, hrdvd, hrsq⟩
              have hrle : r ≤ q := Nat.le_of_dvd (by omega) hrdvd
              rcases Nat.lt_or_ge r q with h | h
              · exact h
              · have : r = q := by omega
                subst this
                nlinarith
          obtain ⟨r, hr2, hrlt, hrdvd, hrsq⟩ := hsf
          exact Or.inl ⟨r, hr2, hrlt, dvd_trans hrdvd hdvd, by omega⟩
      · exact Or.inr hold

theorem sieveOuterAux_inv {m old : Nat} :
    ∀ fuel p s, 2 ≤ p → SieveInv m old p s →
      SieveInv m old (p + fuel) (sieveOuterAux m fuel s p) := by
  intro fuel
  induction fuel with
  | zero => intro p s _ h; exact h
  | succ f ih =>
    intro p s hp h
    have hres := ih (p + 1) (sieveStep m s p) (by omega) (sieveStep_inv hp h)
    have harith : p + 1 + f = p + (f + 1) := by omega
    rw [harith] at hres
    exact hres

theorem sieveStep_length (m : Nat) (s : List Bool) (p : Nat) :
    (sieveStep m s p).length = s.length := by
  unfold sieveStep
  split
  · exact markFrom_length s p (p * p) m
  · rfl

theorem sieveOuterAux_length (m : Nat) :
    ∀ fuel s p, (sieveOuterAux m fuel s p).length = s.length := by
  intro fuel
  induction fuel with
  | zero => intro s p; rfl
  | succ f ih =>
    intro s p
    unfold sieveOuterAux
    rw [ih]
    exact sieveStep_length m s p

theorem sieveLoop_length (s : List Bool) (m : Nat) :
    (sieveLoop s m).length = s.length :=
  sieveOuterAux_length m (m - 2) s 2

theorem sieveInv_init (m old : Nat) (hom : old ≤ m) :
    SieveInv m old 2
      (((List.range old).map codeEntry) ++ List.replicate (m - old) true) := by
  constructor
  · simp only [List.length_append, List.length_map, List.length_range,
      List.length_replicate]
    omega
  · intro i hi
    have hgd : (((List.range old).map codeEntry)
          ++ List.replicate (m - old) true).getD i false
        = if i < old then codeEntry i else true := by
      rw [List.getD_eq_getElem?_getD]
      by_cases hio : i < old
      · rw [List.getElem?_append_left (by simpa using hio), if_pos hio]
        rw [List.getElem?_eq_getElem (by simpa using hio)]
        simp
      · rw [List.getElem?_append_right (by simpa using hio), if_neg hio]
        rw [List.getElem?_replicate_of_lt (by simp; omega)]
        rfl
    rw [hgd]
    by_cases hio : i < old
    · rw [if_pos hio, codeEntry_false_iff]
      constructor
      · intro hf
        exact Or.inr ⟨hio, hf⟩
      · rintro (⟨q, h2, hlt, _, _⟩ | ⟨_, hf⟩)
        · omega
        · exact hf
    · rw [if_neg hio]
      constructor
      · intro h
        exact absurd h (by simp)
      · rintro (⟨q, h2, hlt, _, _⟩ | ⟨hio', _⟩)
        · omega
        · omega

theorem sieveLoop_getD (old m : Nat) (hom : old ≤ m) (i : Nat) (hi : i < m) :
    (sieveLoop (((List.range old).map codeEntry)
        ++ List.replicate (m - old) true) m).getD i false = codeEntry i := by
  obtain ⟨hlen, hiff⟩ := @sieveOuterAux_inv m old (m - 2) 2 _
    (le_refl 2) (sieveInv_init m old hom)
  have hiffi := hiff i hi
  cases hce : codeEntry i
  · have hf := (codeEntry_false_iff i).mp hce
    apply hiffi.mpr
    obtain ⟨q, h2, hdvd, hsq⟩ := hf
    have hqq : q ≤ q * q := Nat.le_mul_of_pos_left q (by omega)
    exact Or.inl ⟨q, h2, by omega, hdvd, hsq⟩
  · have hnf : ¬ hasFac i := by
      intro hf
      rw [(codeEntry_false_iff i).mpr hf] at hce
      exact absurd hce (by simp)
    cases hgd : (sieveLoop (((List.range old).map codeEntry)
        ++ List.replicate (m - old) true) m).getD i false
    · exfalso
      rcases hiffi.mp hgd with ⟨q, h2, _, hdvd, hsq⟩ | ⟨_, hf⟩
      · exact hnf ⟨q, h2, hdvd, hsq⟩
      · exact hnf hf
    · rfl

theorem eq_map_range_of_getD {l : List Bool} {k : Nat} {f : Nat → Bool}
    (hl : l.length = k) (h : ∀ i, i < k → l.getD i false = f i) :
    l = (List.range k).map f := by
  apply List.ext_get
  · simp [hl]
  · intro n h1 h2
    have hn : n < k := by omega
    have h3 : l[n] = f n := by
      have hx := h n hn
      rwa [List.getD_eq_getElem?_getD, List.getElem?_eq_getElem h1,
        Option.getD_some] at hx
    simp [List.get_eq_getElem, h3]

theorem goodState_map_range (k : Nat) :
    goodState ((List.range k).map codeEntry) := by
  unfold goodState
  simp

theorem goodState_nil : goodState [] := by
  unfold goodState
  simp

theorem goodState_getElem {s : List Bool} (hs : goodState s) (i : Nat)
    (h : i < s.length) : s[i] = codeEntry i := by
  have h2 : s[i]? = some (codeEntry i) := by
    conv_lhs => rw [hs]
    rw [List.getElem?_eq_getElem (by simpa using h)]
    simp
  rw [List.getElem?_eq_getElem h] at h2
  exact Option.some.inj h2

theorem goodState_getD {s : List Bool} (hs : goodState s) (i : Nat)
    (h : i < s.length) : s.getD i false = codeEntry i := by
  rw [List.getD_eq_getElem?_getD, List.getElem?_eq_getElem h, Option.getD_some]
  exact goodState_getElem hs i h

theorem getSieve_of_le {t : List Bool} {n : Nat} (h : n ≤ t.length) :
    getSieve t n = (t.take n, t) := by
  unfold getSieve
  rw [if_pos h]

theorem getSieve_of_gt {t : List Bool} {n : Nat} (h : ¬ n ≤ t.length) :
    getSieve t n
      = ((sieveLoop (t ++ List.replicate (n - t.length) true) n).take n,
         sieveLoop (t ++ List.replicate (n - t.length) true) n) := by
  unfold getSieve
  rw [if_neg h]

theorem sieveLoop_grown_eq {s : List Bool} (hs : goodState s) {n : Nat}
    (hn : ¬ n ≤ s.length) :
    sieveLoop (s ++ List.replicate (n - s.length) true) n
      = (List.range n).map codeEntry := by
  have hleng : (sieveLoop (s ++ List.replicate (n - s.length) true) n).length
      = n := by
    rw [sieveLoop_length, List.length_append, List.length_replicate]
    omega
  apply eq_map_range_of_getD hleng
  intro i hi
  have hgrown : s ++ List.replicate (n - s.length) true
      = ((List.range s.length).map codeEntry)
          ++ List.replicate (n - s.length) true := by
    congr 1
  rw [hgrown]
  exact sieveLoop_getD s.length n (by omega) i hi

/-- The copy `getSieve` returns on a good state: the first `max` values of
`codeEntry`. -/
theorem getSieve_fst {s : List Bool} (hs : goodState s) (n : Nat) :
    (getSieve s n).1 = (List.range n).map codeEntry := by
  by_cases hn : n ≤ s.length
  · rw [getSieve_of_le hn]
    show s.take n = _
    apply eq_map_range_of_getD
    · rw [List.length_take]
      omega
    · intro i hi
      have hil : i < (s.take n).length := by
        rw [List.length_take]
        omega
      rw [List.getD_eq_getElem?_getD, List.getElem?_eq_getElem hil,
        Option.getD_some, List.getElem_take]
      exact goodState_getElem hs i (by omega)
  · rw [getSieve_of_gt hn]
    show (sieveLoop (s ++ List.replicate (n - s.length) true) n).take n = _
    rw [sieveLoop_grown_eq hs hn]
    apply List.take_of_length_le
    simp

/-- The memoized sieve after `getSieve` on a good state: the first
`Nat.max length max` values of `codeEntry`. -/
theorem getSieve_snd {s : List Bool} (hs : goodState s) (n : Nat) :
    (getSieve s n).2 = (List.range (max s.length n)).map codeEntry := by
  by_cases hn : n ≤ s.length
  · rw [getSieve_of_le hn]
    show s = _
    have hmax : max s.length n = s.length := by omega
    rw [hmax]
    exact hs
  · rw [getSieve_of_gt hn]
    show sieveLoop (s ++ List.replicate (n - s.length) true) n = _
    have hmax : max s.length n = n := by omega
    rw [hmax]
    exact sieveLoop_grown_eq hs hn

theorem getSieve_snd_good {s : List Bool} (hs : goodState s) (n : Nat) :
    goodState (getSieve s n).2 := by
  rw [getSieve_snd hs]
  exact goodState_map_range _

theorem getSieve_fst_length (s : List Bool) (n : Nat) :
    (getSieve s n).1.length = n := by
  by_cases hn : n ≤ s.length
  · rw [getSieve_of_le hn]
    show (s.take n).length = n
    rw [List.length_take]
    omega
  · rw [getSieve_of_gt hn]
    show ((sieveLoop (s ++ List.replicate (n - s.length) true) n).take n).length
      = n
    rw [List.length_take, sieveLoop_length, List.length_append,
      List.length_replicate]
    omega

theorem getSieve_snd_length (s : List Bool) (n : Nat) :
    (getSieve s n).2.length = max s.length n := by
  by_cases hn : n ≤ s.length
  · rw [getSieve_of_le hn]
    show s.length = _
    omega
  · rw [getSieve_of_gt hn]
    show (sieveLoop (s ++ List.replicate (n - s.length) true) n).length = _
    rw [sieveLoop_length, List.length_append, List.length_replicate]
    omega

theorem getSieve_fst_eq_take (s : List Bool) (n : Nat) :
    (getSieve s n).1 = (getSieve s n).2.take n := by
  unfold getSieve
  split
  · rfl
  · rfl

/-- Calling `getSieve` again with the same bound returns the same copy and
leaves the table unchanged. -/
theorem getSieve_again (s : List Bool) (n : Nat) :
    getSieve (getSieve s n).2 n = ((getSieve s n).1, (getSieve s n).2) := by
  have h1 : n ≤ (getSieve s n).2.length := by
    rw [getSieve_snd_length]
    omega
  rw [getSieve_of_le h1, ← getSieve_fst_eq_take]

/-- When `isPrime` returns an actual boolean (rather than `undefined`),
the read was in range and the table was not grown: growth only happens
when `num` exceeds the length, and then the returned copy has length
exactly `num`, so the read `[num]` is out of range and yields
`undefined`. -/
theorem isPrime_some {s : List Bool} {v : Int} {b : Bool}
    (h : (isPrime s v).1 = some b) :
    (isPrime s v).2 = s ∧ 0 ≤ v ∧ v < (s.length : Int) := by
  unfold isPrime at h ⊢
  by_cases hv : v ≤ (s.length : Int)
  · rw [if_pos hv] at h ⊢
    unfold jsIndex at h
    by_cases hr : 0 ≤ v ∧ v < ((s.length : Nat) : Int)
    · exact ⟨rfl, hr.1, hr.2⟩
    · rw [if_neg hr] at h
      cases h
  · exfalso
    rw [if_neg hv] at h
    unfold jsIndex at h
    have hlen : (((getSieve s v.toNat).1.length : Nat) : Int) = v := by
      rw [getSieve_fst_length]
      omega
    by_cases hr : 0 ≤ v ∧ v < (((getSieve s v.toNat).1.length : Nat) : Int)
    · omega
    · rw [if_neg hr] at h
      cases h

theorem isPrime_snd_good {s : List Bool} (hs : goodState s) (v : Int) :
    goodState (isPrime s v).2 := by
  unfold isPrime
  by_cases hv : v ≤ (s.length : Int)
  · rw [if_pos hv]
    exact hs
  · rw [if_neg hv]
    exact getSieve_snd_good hs v.toNat

/-- `looseEqFalse` holds exactly on a genuine `false` read. -/
theorem looseEqFalse_iff (o : Option Bool) :
    looseEqFalse o = true ↔ o = some false := by
  cases o with
  | none => simp [looseEqFalse]
  | some b => cases b <;> simp [looseEqFalse]

/-- The upward scan exits within `sieve.length + 1 - v` iterations: every
continuing step reads a genuine `false` below the table's end, and the
read at the end (or past it, or at a negative index) yields `undefined`,
which fails the `== false` test. -/
theorem scanUp_isSome (mx : JsNum) :
    ∀ fuel (s : List Bool) (v : Int),
      ((s.length : Int) + 1 - v).toNat < fuel →
      (scanUp mx fuel s v).isSome = true := by
  intro fuel
  induction fuel with
  | zero =>
    intro s v h
    omega
  | succ f ih =>
    intro s v h
    unfold scanUp
    by_cases hlt : jsLt (JsNum.int v) mx = true
    · rw [if_pos hlt]
      by_cases heq : looseEqFalse (isPrime s v).1 = true
      · rw [if_pos heq]
        obtain ⟨hst, hv0, hvl⟩ := isPrime_some ((looseEqFalse_iff _).mp heq)
        rw [hst]
        exact ih s (v + 1) (by omega)
      · rw [if_neg heq]
        rfl
    · rw [if_neg hlt]
      rfl

theorem scanUp_mono (mx : JsNum) :
    ∀ fuel fuel' (s : List Bool) (v : Int) (r : Int × List Bool),
      fuel ≤ fuel' → scanUp mx fuel s v = some r →
      scanUp mx fuel' s v = some r := by
  intro fuel
  induction fuel with
  | zero =>
    intro fuel' s v r _ h
    cases h
  | succ f ih =>
    intro fuel' s v r hle h
    obtain ⟨f', rfl⟩ : ∃ f', fuel' = f' + 1 := ⟨fuel' - 1, by omega⟩
    unfold scanUp at h ⊢
    by_cases hlt : jsLt (JsNum.int v) mx = true
    · rw [if_pos hlt] at h ⊢
      by_cases heq : looseEqFalse (isPrime s v).1 = true
      · rw [if_pos heq] at h ⊢
        exact ih f' _ _ r (by omega) h
      · rw [if_neg heq] at h ⊢
        exact h
    · rw [if_neg hlt] at h ⊢
      exact h

theorem scanUp_good (mx : JsNum) :
    ∀ fuel (s : List Bool) (v : Int) (r : Int × List Bool),
      goodState s → scanUp mx fuel s v = some r → goodState r.2 := by
  intro fuel
  induction fuel with
  | zero =>
    intro s v r _ h
    cases h
  | succ f ih =>
    intro s v r hs h
    unfold scanUp at h
    by_cases hlt : jsLt (JsNum.int v) mx = true
    · rw [if_pos hlt] at h
      by_cases heq : looseEqFalse (isPrime s v).1 = true
      · rw [if_pos heq] at h
        exact ih _ _ r (isPrime_snd_good hs v) h
      · rw [if_neg heq] at h
        cases h
        exact isPrime_snd_good hs v
    · rw [if_neg hlt] at h
      cases h
      exact hs

/-- The downward scan exits within `v + 2` iterations: continuing steps
read genuine `false` entries at non-negative indices, and the read at
index `-1` yields `undefined`. -/
theorem scanDown_isSome (mn : JsNum) :
    ∀ fuel (s : List Bool) (v : Int),
      (v + 2).toNat < fuel → (scanDown mn fuel s v).isSome = true := by
  intro fuel
  induction fuel with
  | zero =>
    intro s v h
    omega
  | succ f ih =>
    intro s v h
    unfold scanDown
    by_cases hlt : jsGt (JsNum.int v) mn = true
    · rw [if_pos hlt]
      by_cases heq : looseEqFalse (isPrime s v).1 = true
      · rw [if_pos heq]
        obtain ⟨hst, hv0, hvl⟩ := isPrime_some ((looseEqFalse_iff _).mp heq)
        rw [hst]
        exact ih s (v - 1) (by omega)
      · rw [if_neg heq]
        rfl
    · rw [if_neg hlt]
      rfl

theorem scanDown_mono (mn : JsNum) :
    ∀ fuel fuel' (s : List Bool) (v : Int) (r : Int × List Bool),
      fuel ≤ fuel' → scanDown mn fuel s v = some r →
      scanDown mn fuel' s v = some r := by
  intro fuel
  induction fuel with
  | zero =>
    intro fuel' s v r _ h
    cases h
  | succ f ih =>
    intro fuel' s v r hle h
    obtain ⟨f', rfl⟩ : ∃ f', fuel' = f' + 1 := ⟨fuel' - 1, by omega⟩
    unfold scanDown at h ⊢
    by_cases hlt : jsGt (JsNum.int v) mn = true
    · rw [if_pos hlt] at h ⊢
      by_cases heq : looseEqFalse (isPrime s v).1 = true
      · rw [if_pos heq] at h ⊢
        exact ih f' _ _ r (by omega) h
      · rw [if_neg heq] at h ⊢
        exact h
    · rw [if_neg hlt] at h ⊢
      exact h

theorem scanDown_good (mn : JsNum) :
    ∀ fuel (s : List Bool) (v : Int) (r : Int × List Bool),
      goodState s → scanDown mn fuel s v = some r → goodState r.2 := by
  intro fuel
  induction fuel with
  | zero =>
    intro s v r _ h
    cases h
  | succ f ih =>
    intro s v r hs h
    unfold scanDown at h
    by_cases hlt : jsGt (JsNum.int v) mn = true
    · rw [if_pos hlt] at h
      by_cases heq : looseEqFalse (isPrime s v).1 = true
      · rw [if_pos heq] at h
        exact ih _ _ r (isPrime_snd_good hs v) h
      · rw [if_neg heq] at h
        cases h
        exact isPrime_snd_good hs v
    · rw [if_neg hlt] at h
      cases h
      exact hs

/-- The length of the table after the initial `isPrime(num)` call. -/
theorem isPrime_snd_length_le (s : List Bool) (v : Int) :
    (isPrime s v).2.length ≤ s.length + v.natAbs := by
  unfold isPrime
  by_cases hv : v ≤ (s.length : Int)
  · rw [if_pos hv]
    show s.length ≤ _
    omega
  · rw [if_neg hv]
    show (getSieve s v.toNat).2.length ≤ _
    rw [getSieve_snd_length]
    omega

/-- `nearestPrime` always returns (with a fuel-independent result) once
the fuel reaches `sieve.length + 2 * num.natAbs + 3`. -/
theorem nearestPrime_some (s : List Bool) (num : Int) (mn mx : JsNum) :
    ∃ r, ∀ fuel, s.length + 2 * num.natAbs + 3 ≤ fuel →
      nearestPrime fuel s num mn mx = some r := by
  by_cases ht : truthyRead (isPrime s num).1 = true
  · refine ⟨(JsNum.int num, (isPrime s num).2), fun fuel _ => ?_⟩
    unfold nearestPrime
    rw [if_pos ht]
  · have hlen := isPrime_snd_length_le s num
    set B := s.length + 2 * num.natAbs + 3 with hB
    have hup : (scanUp mx B (isPrime s num).2 num).isSome = true := by
      apply scanUp_isSome
      omega
    obtain ⟨⟨np, s1⟩, hups⟩ := Option.isSome_iff_exists.mp hup
    have hdown : (scanDown mn B s1 num).isSome = true := by
      apply scanDown_isSome
      omega
    obtain ⟨⟨pp, s2⟩, hdowns⟩ := Option.isSome_iff_exists.mp hdown
    refine ⟨(nearestPrimeReturn num mn mx np pp, s2), fun fuel hfuel => ?_⟩
    unfold nearestPrime
    rw [if_neg ht]
    simp only [scanUp_mono mx B fuel _ _ _ hfuel hups,
      scanDown_mono mn B fuel _ _ _ hfuel hdowns]

theorem nearestPrime_good {s : List Bool} (hs : goodState s) (fuel : Nat)
    (num : Int) (mn mx : JsNum) (r : JsNum × List Bool)
    (h : nearestPrime fuel s num mn mx = some r) : goodState r.2 := by
  unfold nearestPrime at h
  by_cases ht : truthyRead (isPrime s num).1 = true
  · rw [if_pos ht] at h
    cases h
    exact isPrime_snd_good hs num
  · rw [if_neg ht] at h
    cases hup : scanUp mx fuel (isPrime s num).2 num with
    | none =>
      simp only [hup] at h
      cases h
    | some r1 =>
      obtain ⟨np, s1⟩ := r1
      simp only [hup] at h
      have hs1 : goodState s1 :=
        scanUp_good mx fuel _ num (np, s1) (isPrime_snd_good hs num) hup
      cases hdown : scanDown mn fuel s1 num with
      | none =>
        simp only [hdown] at h
        cases h
      | some r2 =>
        obtain ⟨pp, s2⟩ := r2
        simp only [hdown] at h
        cases h
        exact scanDown_good mn fuel s1 num (pp, s2) hs1 hdown

/-- The table states reachable through the exported operations, starting
from the module's initial empty sieve. -/
inductive Reachable : List Bool → Prop
  | init : Reachable []
  | sieve (s : List Bool) (n : Nat) : Reachable s → Reachable (getSieve s n).2
  | labeled (s : List Bool) (n : Nat) :
      Reachable s → Reachable (getLabeledSieve s n).2
  | primes (s : List Bool) (n : Nat) :
      Reachable s → Reachable (listprimes s n).2
  | nearest (s : List Bool) (fuel : Nat) (num : Int) (mn mx : JsNum)
      (r : JsNum × List Bool) : Reachable s →
      nearestPrime fuel s num mn mx = some r → Reachable r.2

/-- Every reachable table state holds exactly the `codeEntry` values. -/
theorem reachable_goodState {s : List Bool} (h : Reachable s) : goodState s := by
  induction h with
  | init => exact goodState_nil
  | sieve s n _ ih => exact getSieve_snd_good ih n
  | labeled s n _ ih => exact getSieve_snd_good ih n
  | primes s n _ ih => exact getSieve_snd_good ih n
  | nearest s fuel num mn mx r _ hsome ih =>
    exact nearestPrime_good ih fuel num mn mx r hsome

theorem take_map_range (f : Nat → Bool) {n1 n2 : Nat} (h : n1 ≤ n2) :
    ((List.range n2).map f).take n1 = (List.range n1).map f := by
  apply eq_map_range_of_getD
  · rw [List.length_take, List.length_map, List.length_range]
    omega
  · intro i hi
    have hil : i < (((List.range n2).map f).take n1).length := by
      rw [List.length_take, List.length_map, List.length_range]
      omega
    rw [List.getD_eq_getElem?_getD, List.getElem?_eq_getElem hil,
      Option.getD_some, List.getElem_take]
    simp

/-! ## Claims -/

/-- C1 (code evidence): the claim "for every n ≥ 0, `isPrime(n)` returns
true iff n ≥ 2 and n has no divisor in `[2, n)`; in particular
`isPrime(0) == false`, `isPrime(1) == false`, `isPrime(2) == true`" fails
on the code.  Once the table covers index 1 (here grown by a prior
`getSieve(3)`), `isPrime(1)` returns `true` (the sieve never clears
indices 0 and 1), and on the fresh empty table `isPrime(2)` returns
`undefined` (the off-by-one read `getSieve(num)[num]`), not `true`. -/
theorem isPrime_entries_bug :
    (isPrime (getSieve [] 3).2 1).1 = some true ∧
    (isPrime ([] : List Bool) 2).1 = none := by
  decide

/-- C2: growing the table never changes previously settled snapshot
entries — for any reachable table state and bounds n1 < n2, the copy
returned by `getSieve(n1)` equals the first n1 entries of the copy
returned by a subsequent `getSieve(n2)`. -/
theorem getSieve_snapshot_monotone {s : List Bool} (hs : Reachable s)
    (n1 n2 : Nat) (h12 : n1 < n2) :
    (getSieve s n1).1 = ((getSieve (getSieve s n1).2 n2).1).take n1 := by
  have hg := reachable_goodState hs
  rw [getSieve_fst hg, getSieve_fst (getSieve_snd_good hg n1),
    take_map_range codeEntry (le_of_lt h12)]

/-- Witness for C2 at the initial state with bounds 3 < 5. -/
theorem getSieve_snapshot_monotone_witness :
    (getSieve [] 3).1 = ((getSieve (getSieve [] 3).2 5).1).take 3 :=
  getSieve_snapshot_monotone Reachable.init 3 5 (by norm_num)

/-- C3 (code evidence): the claim "with candidates on both sides,
`nearestPrime` returns the one with the smaller absolute distance
(downward on ties); in particular `nearestPrime(10) == 11`" fails on the
code.  On the fresh table `nearestPrime(10)` returns 10 itself (both
scans stop immediately because `isPrime` yields `undefined` at the
table's edge and `undefined == false` is false in JavaScript), and with
the table already grown past 11 by `getSieve(20)` it returns 7 — the
farther candidate — because the comparison on line 141 returns
`nextPrime` when it is *farther*, not closer. -/
theorem nearestPrime_ten_bug :
    nearestPrime 32 [] 10 JsNum.negInf JsNum.posInf
      = some (JsNum.int 10, (getSieve [] 10).2) ∧
    nearestPrime 64 ((getSieve [] 20).2) 10 JsNum.negInf JsNum.posInf
      = some (JsNum.int 7, (getSieve [] 20).2) := by
  decide

/-- C4 (code evidence): the claim "`nearestPrime(8, 8, 8)` returns the
NoneFound signal (`NaN`)" fails on the code: both `while` loops exit
immediately (8 < 8 and 8 > 8 are false), neither bound check on lines
135-136 fires (8 > 8 and 8 < 8 are false), and the return chain yields
`prevPrime = 8` — an ordinary (and composite!) integer. -/
theorem nearestPrime_888_bug :
    nearestPrime 32 [] 8 (JsNum.int 8) (JsNum.int 8)
      = some (JsNum.int 8, (getSieve [] 8).2) := by
  decide

/-- C5 (code evidence): the claim "`listPrimes(n)` returns exactly the
indices in `[0, n)` whose table entry is true; in particular
`listPrimes(20) == [2,3,5,7,11,13,17,19]`" fails on the code: the result
for 20 is `[1,2,3,5,7,11,13,17,19]` — it contains 1 (whose entry is
`true` in the table, since the sieve never clears index 1) and omits 0
even though 0's entry is also `true` (`0` is dropped by
`filter(Boolean)` as a falsy number). -/
theorem listprimes_twenty_bug :
    (listprimes [] 20).1 =
      [MapVal.num 1, MapVal.num 2, MapVal.num 3, MapVal.num 5, MapVal.num 7,
       MapVal.num 11, MapVal.num 13, MapVal.num 17, MapVal.num 19] := by
  decide

/-- C6 (code evidence): the claim "entries at indices 0 and 1 are false
in every reachable state; in particular `getSieve(1)` returns `[false]`"
fails on the code: `getSieve(1)` returns `[true]` (fresh entries are
initialised `true` and the sieve loop never touches indices 0 and 1). -/
theorem getSieve_one_bug : getSieve [] 1 = ([true], [true]) := by
  decide

/-- A caller-side write into the sequence `getSieve` returned: the copy
is updated, the shared table is untouched. -/
def mutateReturned (r : List Bool) (i : Nat) (b : Bool) : List Bool :=
  r.set i b

/-- The (caller copy, shared table) pair after a call to `getSieve`
followed by a caller-side mutation of the returned copy.  `slice` returns
a fresh array in JavaScript, so the mutation acts on a value separate
from the table. -/
def afterCallerMutation (s : List Bool) (n i : Nat) (b : Bool) :
    List Bool × List Bool :=
  (mutateReturned (getSieve s n).1 i b, (getSieve s n).2)

/-- C7: the sequence returned by `getSieve(n)` is an independent copy:
after any caller-side mutation of the returned sequence the shared
table is unchanged, and a later `getSieve(n)` still returns the original
values. -/
theorem getSieve_copy_frame (s : List Bool) (n i : Nat) (b : Bool) :
    (afterCallerMutation s n i b).2 = (getSieve s n).2 ∧
    (getSieve (afterCallerMutation s n i b).2 n).1 = (getSieve s n).1 := by
  constructor
  · rfl
  · show (getSieve (getSieve s n).2 n).1 = _
    rw [getSieve_again]

/-- C8 counterexample: `isPrime(-1)` does not fail with InvalidArgument —
it returns normally with `undefined` (the guard `sieve.length >= num`
always holds for negative `num`, and the negative-index read yields
`undefined`); the body contains no validation and no throw. -/
theorem isPrime_neg_one_no_error : isPrime ([] : List Bool) (-1) = (none, []) := by
  decide

/-- C8 amended: `isPrime(n)` performs no argument validation: for every
integer n < 0, in any table state, it silently returns `undefined` and
leaves the table unchanged, rather than raising InvalidArgument. -/
theorem isPrime_negative_returns_undefined (s : List Bool) (n : Int)
    (hn : n < 0) : isPrime s n = (none, s) := by
  unfold isPrime
  rw [if_pos (by omega : n ≤ (s.length : Int))]
  unfold jsIndex
  rw [if_neg (by omega : ¬ (0 ≤ n ∧ n < (s.length : Int)))]

/-- Witness for the amended C8 at n = -5 on the initial state. -/
theorem isPrime_negative_returns_undefined_witness :
    isPrime ([] : List Bool) (-5) = (none, []) :=
  isPrime_negative_returns_undefined [] (-5) (by norm_num)

/-- C9: for a non-prime n, the upward scan of
`nearestPrime(n, min, +Infinity)` terminates — the whole call returns a
(fuel-independent) result once the loop-iteration budget reaches
`sieve.length + 2·|n| + 3`.  (It terminates because the scan stops at the
table's edge, where `isPrime` yields `undefined` and `undefined == false`
is false — not because it finds a prime.) -/
theorem nearestPrime_unbounded_max_terminates (s : List Bool) (n : Int)
    (mn : JsNum) (hn : ¬ Nat.Prime n.toNat) :
    ∃ r, ∀ fuel, s.length + 2 * n.natAbs + 3 ≤ fuel →
      nearestPrime fuel s n mn JsNum.posInf = some r :=
  nearestPrime_some s n mn JsNum.posInf

/-- Witness for C9 at n = 8 (not prime) on the initial state with an
unbounded upward search. -/
theorem nearestPrime_unbounded_max_terminates_witness :
    ∃ r, ∀ fuel, ([] : List Bool).length + 2 * (8 : Int).natAbs + 3 ≤ fuel →
      nearestPrime fuel [] 8 JsNum.negInf JsNum.posInf = some r :=
  nearestPrime_unbounded_max_terminates [] 8 JsNum.negInf (by decide)

/-- C10: the export object lists `getLabeledSieve` (and not `isPrime`),
and for every n the sequence `getLabeledSieve(n)` returns has length n
with the element at index i being the pair of i and `getSieve(n)[i]`. -/
theorem exports_and_labeled_sieve (s : List Bool) (n i : Nat) (hi : i < n) :
    "getLabeledSieve" ∈ moduleExports ∧ "isPrime" ∉ moduleExports ∧
    (getLabeledSieve s n).1.length = n ∧
    (getLabeledSieve s n).1.getD i (0, false)
      = (i, (getSieve s n).1.getD i false) := by
  have hlen : (getSieve s n).1.length = n := getSieve_fst_length s n
  refine ⟨by decide, by decide, ?_, ?_⟩
  · show (getSieve s n).1.enum.length = n
    rw [List.enum_length, hlen]
  · show (List.enumFrom 0 (getSieve s n).1).getD i (0, false) = _
    have hil : i < (getSieve s n).1.length := by omega
    rw [List.getD_eq_getElem?_getD, List.getElem?_enumFrom,
      List.getD_eq_getElem?_getD ((getSieve s n).1) i false,
      List.getElem?_eq_getElem hil]
    simp

/-- Witness for C10 at n = 2, i = 1 on the initial state. -/
theorem exports_and_labeled_sieve_witness :
    "getLabeledSieve" ∈ moduleExports ∧ "isPrime" ∉ moduleExports ∧
    (getLabeledSieve ([] : List Bool) 2).1.length = 2 ∧
    (getLabeledSieve ([] : List Bool) 2).1.getD 1 (0, false)
      = (1, (getSieve ([] : List Bool) 2).1.getD 1 false) :=
  exports_and_labeled_sieve [] 2 1 (by norm_num)

end Primeutil
